import Mathlib

/-!
Verification of the `hirasawayuki/blockchain` Go repository.

This file shallowly embeds the data model and the operations of the
`block` and `wallet` packages (src/block/blockchain.go, src/wallet/wallet.go)
and proves or refutes the frozen claims about them.

Modelling conventions:
* Go slices become `List`, the Go byte type becomes `Fin 256`, `[32]byte`
  becomes the subtype of byte lists of length 32.
* Go `int`/`int64` become `ℤ` (no claim exercises 64-bit overflow);
  the Go `float32` transaction value becomes `ℚ` (no claim depends on
  float rounding, only on comparisons and exact constants).
* SHA-256 and RIPEMD-160 are not bit-modelled: every claim uses them only
  as opaque digest functions, so they are passed as function parameters
  (`h : HashFn` models `Block.Hash`, i.e. SHA-256 of the block's JSON
  encoding; `sha256B`/`ripemd160B` model the raw-byte hashes of wallet.go).
  Likewise `ecdsa.Verify` is passed as an opaque boolean `verify` parameter.
* Code that panics (nil dereference, out-of-range slice index) is modelled
  by an `Option` result whose `none` is the panic/abort outcome.
* Stateful methods on `*Blockchain` become functions
  `Blockchain → ... → Blockchain × result`.
-/

namespace BlockchainSpec

/-- A byte, as stored in Go byte slices. -/
abbrev Byte := Fin 256

/-- Model of the Go `[32]byte` SHA-256 digest type. -/
def Hash32 := { l : List Byte // l.length = 32 }

instance : DecidableEq Hash32 := Subtype.instDecidableEq

/-- Model of the 20-byte RIPEMD-160 digest (`ripemd160.New().Sum` output). -/
def Digest20 := { l : List Byte // l.length = 20 }

/-- The all-zero 32-byte digest (the zero value of `[32]byte`). -/
def zeroHash : Hash32 := ⟨List.replicate 32 0, by simp⟩

/-- Model of `block.Transaction`: sender address, recipient address, value.
Go stores `value` as `float32`; it is modelled as `ℚ`. -/
structure Transaction where
  sender : String
  recipient : String
  value : ℚ
deriving DecidableEq

/-- Model of `block.Block`: timestamp, nonce, previousHash, transactions.
Go stores `timestamp int64` and `nonce int`; both are modelled as `ℤ`. -/
structure Block where
  timestamp : ℤ
  nonce : ℤ
  previousHash : Hash32
  transactions : List Transaction
deriving DecidableEq

/-- Model of `block.Blockchain`'s data fields (the two mutexes of the Go
struct guard concurrent access and carry no data; the neighbor list enters
the model through the per-neighbor response list given to
`resolveConflicts`). -/
structure Blockchain where
  transactionPool : List Transaction
  chain : List Block
  blockchainAddress : String
  port : ℕ
deriving DecidableEq

/-- `MiningDifficulty = 3` from blockchain.go. -/
def miningDifficulty : ℕ := 3

/-- `MiningSender = "THE BLOCKCHAIN"` from blockchain.go. -/
def miningSender : String := "THE BLOCKCHAIN"

/-- `MiningReward = 1.0` from blockchain.go. -/
def miningReward : ℚ := 1

/-- Abstract model of `(*Block).Hash`, i.e. `sha256.Sum256(json.Marshal(b))`:
an opaque function from a block to a 32-byte digest.  The claims never look
inside SHA-256, so the digest function is a parameter of the development. -/
abbrev HashFn := Block → Hash32

/-- Lowercase hexadecimal digit, as produced by Go's `fmt.Sprintf("%x", ...)`. -/
def hexDigit (n : ℕ) : Char :=
  if n < 10 then Char.ofNat (48 + n) else Char.ofNat (87 + n)

/-- Lowercase hex encoding of a byte list (`fmt.Sprintf("%x", bytes)`),
two hex digits per byte. -/
def hexChars (bs : List Byte) : List Char :=
  bs.flatMap fun b => [hexDigit (b.val / 16), hexDigit (b.val % 16)]

/-- Lowercase hex string of a 32-byte digest, `fmt.Sprintf("%x", b.Hash())`. -/
def hexString (h : Hash32) : String :=
  String.mk (hexChars h.val)

/-- Model of `(*Blockchain).ValidProof(nonce, previousHash, transactions,
difficulty)`: build a guess block with timestamp 0, hash it, and compare the
first `difficulty` characters of its lowercase hex digest with
`strings.Repeat("0", difficulty)`.  (Go slices the string bytewise as
`guessHashStr[:difficulty]`; the hex string is pure ASCII, so bytes are
characters and the slice is `List.take` on the characters.) -/
def validProof (h : HashFn) (nonce : ℤ) (previousHash : Hash32)
    (transactions : List Transaction) (difficulty : ℕ) : Bool :=
  let zeros := List.replicate difficulty '0'
  let guessBlock : Block := ⟨0, nonce, previousHash, transactions⟩
  let guessHashChars := hexChars (h guessBlock).val
  guessHashChars.take difficulty == zeros

/-- Loop body of `(*Blockchain).ValidChain`: starting from `preBlock`, check
each later block's `previousHash` link and its proof of work. -/
def validFrom (h : HashFn) (preBlock : Block) : List Block → Bool
  | [] => true
  | b :: rest =>
    if b.previousHash ≠ h preBlock then false
    else if ¬ validProof h b.nonce b.previousHash b.transactions miningDifficulty then false
    else validFrom h b rest

/-- Model of `(*Blockchain).ValidChain(chain)`.  The Go function reads
`chain[0]` before its loop, so on an empty chain it panics with an
out-of-range index instead of returning: that abort is the `none` result. -/
def validChain (h : HashFn) : List Block → Option Bool
  | [] => none
  | b0 :: rest => some (validFrom h b0 rest)

/-- Model of `(*Blockchain).CopyTransactionPool`: rebuild each pool entry
with `NewTransaction` (a field-wise value copy). -/
def copyTransactionPool (bc : Blockchain) : List Transaction :=
  bc.transactionPool.map fun t => ⟨t.sender, t.recipient, t.value⟩

/-- Model of `(*Blockchain).CaluculateTotalAmount(blockchainAddress)`:
scan every transaction of every block, subtracting sent values and adding
received values (two independent `if`s, as in the source). -/
def calculateTotalAmount (bc : Blockchain) (blockchainAddress : String) : ℚ :=
  bc.chain.foldl
    (fun acc b =>
      b.transactions.foldl
        (fun acc t =>
          let acc := if t.sender == blockchainAddress then acc - t.value else acc
          if t.recipient == blockchainAddress then acc + t.value else acc)
        acc)
    0

/-- Model of `ecdsa.PublicKey` (the X and Y curve coordinates; the curve
itself plays no role in any claim). -/
structure PubKey where
  x : ℕ
  y : ℕ
deriving DecidableEq

/-- Model of `utils.Signature` (R and S). -/
structure Signature where
  r : ℤ
  s : ℤ
deriving DecidableEq

/-- Abstract model of `(*Blockchain).VerifyTransactionSignature`:
`ecdsa.Verify(pk, sha256(json.Marshal(t)), s.R, s.S)` as an opaque boolean
function of the key, the signature and the transaction value. -/
abbrev VerifyFn := PubKey → Signature → Transaction → Bool

/-- Model of `(*Blockchain).AddTransaction`.  The mining sender skips
verification; other senders are verified and balance-checked.  Passing a
nil public key or signature to the non-sentinel path panics inside
`VerifyTransactionSignature` (`s.R` / `pub.Curve` nil dereference): `none`. -/
def addTransaction (verify : VerifyFn) (bc : Blockchain) (sender recipient : String)
    (value : ℚ) (senderPublicKey : Option PubKey) (s : Option Signature) :
    Option (Blockchain × Bool) :=
  let t : Transaction := ⟨sender, recipient, value⟩
  if sender = miningSender then
    some ({ bc with transactionPool := bc.transactionPool ++ [t] }, true)
  else
    match senderPublicKey, s with
    | some pk, some sig =>
      if verify pk sig t then
        if calculateTotalAmount bc sender < value then some (bc, false)
        else some ({ bc with transactionPool := bc.transactionPool ++ [t] }, true)
      else some (bc, false)
    | _, _ => none

/-- Model of `(*Blockchain).CreateBlock(nonce, previousHash)` at a given
wall-clock time `now` (`time.Now().UnixNano()` inside `NewBlock`): append a
block carrying the pool, then empty the pool.  The outbound
`DELETE /transactions` requests to neighbors change no local state. -/
def createBlock (now : ℤ) (nonce : ℤ) (previousHash : Hash32) (bc : Blockchain) :
    Blockchain :=
  { bc with
    chain := bc.chain ++ [⟨now, nonce, previousHash, bc.transactionPool⟩]
    transactionPool := [] }

/-- Model of the `ProofOfWork` search loop: the nonce starts at 0 and is
incremented until `validProof` holds, so the result is the least such
natural number.  The Go loop diverges when no nonce works; the existence
hypothesis `hx` is exactly its termination condition. -/
def powNonce (h : HashFn) (previousHash : Hash32) (transactions : List Transaction)
    (hx : ∃ n : ℕ, validProof h n previousHash transactions miningDifficulty = true) : ℤ :=
  (Nat.find hx : ℤ)

/-- The mining reward transaction appended by `Mining`:
`AddTransaction(MiningSender, bc.blockchainAddress, MiningReward, nil, nil)`. -/
def rewardTx (bc : Blockchain) : Transaction :=
  ⟨miningSender, bc.blockchainAddress, miningReward⟩

/-- Termination condition for the `ProofOfWork` call inside `Mining`:
whenever the chain has a last block, some nonce satisfies the proof over the
pool extended with the reward transaction. -/
def MiningPowHyp (h : HashFn) (bc : Blockchain) : Prop :=
  ∀ lb, bc.chain.getLast? = some lb →
    ∃ n : ℕ, validProof h n (h lb)
      (copyTransactionPool { bc with transactionPool := bc.transactionPool ++ [rewardTx bc] })
      miningDifficulty = true

/-- Model of `(*Blockchain).Mining()` at wall-clock time `now`.
If the pool is empty it returns false at once.  Otherwise it appends the
reward transaction (the `AddTransaction` sentinel branch: see
`addTransaction_mining_sender`), runs `ProofOfWork` over the last block's
hash and a value copy of the pool, and creates the new block.
`LastBlock()` panics on an empty chain (`none`); the outbound
`PUT /consensus` notifications change no local state. -/
def mining (h : HashFn) (now : ℤ) (bc : Blockchain) (hx : MiningPowHyp h bc) :
    Option (Blockchain × Bool) :=
  if bc.transactionPool = [] then some (bc, false)
  else
    let bc1 : Blockchain := { bc with transactionPool := bc.transactionPool ++ [rewardTx bc] }
    match hlb : bc.chain.getLast? with
    | none => none
    | some lb =>
      let nonce := powNonce h (h lb) (copyTransactionPool bc1) (hx lb hlb)
      some (createBlock now nonce (h lb) bc1, true)

/-- The `AddTransaction` call made by `Mining` takes the sentinel branch:
it appends the reward transaction and returns true, with no verification. -/
theorem addTransaction_mining_sender (verify : VerifyFn) (bc : Blockchain) :
    addTransaction verify bc miningSender bc.blockchainAddress miningReward none none
      = some ({ bc with transactionPool := bc.transactionPool ++ [rewardTx bc] }, true) := by
  simp [addTransaction, rewardTx]

/-- One neighbor's decoded answer to `GET /chain`: the HTTP status code and
the chain decoded from the body (`decoder.Decode` errors are discarded in
the source, leaving the zero value, i.e. the empty chain). -/
structure HttpResp where
  statusCode : ℕ
  body : List Block
deriving DecidableEq

/-- Loop of `(*Blockchain).ResolveConflicts` over the per-neighbor results
of `resp, _ := http.Get(endpoint)`.  A transport error leaves `resp` nil
(`none`), and the source immediately dereferences `resp.StatusCode`, so the
loop aborts with a nil-pointer panic: the `none` result.  Otherwise a chain
is adopted as current `longestChain` when its length strictly exceeds the
running `maxLength` and `ValidChain` holds (short-circuit `&&`, so
`ValidChain` only runs on chains longer than `maxLength`; its own
empty-chain panic is propagated as `none`). -/
def resolveLoop (h : HashFn) :
    List (Option HttpResp) → ℕ → Option (List Block) → Option (ℕ × Option (List Block))
  | [], maxLength, longest => some (maxLength, longest)
  | none :: _, _, _ => none
  | some r :: rest, maxLength, longest =>
    if r.statusCode = 200 then
      if maxLength < r.body.length then
        match validChain h r.body with
        | none => none
        | some true => resolveLoop h rest r.body.length (some r.body)
        | some false => resolveLoop h rest maxLength longest
      else resolveLoop h rest maxLength longest
    else resolveLoop h rest maxLength longest

/-- Model of `(*Blockchain).ResolveConflicts()`, given the decoded
`GET /chain` responses of the neighbors in iteration order.  `maxLength`
starts at the local chain length; on success the chain is replaced (the
transaction pool is not touched) and true is returned, otherwise the state
is unchanged and false is returned. -/
def resolveConflicts (h : HashFn) (bc : Blockchain) (responses : List (Option HttpResp)) :
    Option (Blockchain × Bool) :=
  match resolveLoop h responses bc.chain.length none with
  | none => none
  | some (_, some longestChain) => some ({ bc with chain := longestChain }, true)
  | some (_, none) => some (bc, false)

/-! Concrete instances used by counterexamples and witnesses. -/

/-- A digest function for concrete runs: every block hashes to the all-zero
digest (its hex string starts with arbitrarily many zeros, so every proof of
work succeeds at nonce 0). -/
def constHash : HashFn := fun _ => zeroHash

/-- A signature checker for concrete runs that accepts everything. -/
def verifyAll : VerifyFn := fun _ _ _ => true

/-- A concrete genesis-like block. -/
def blk0 : Block := ⟨0, 0, zeroHash, []⟩

/-- Under `constHash` every proof of work holds (the all-zero digest's hex
string starts with three zeros), whatever the nonce, hash and pool. -/
theorem validProof_constHash (n : ℤ) (p : Hash32) (txs : List Transaction) :
    validProof constHash n p txs miningDifficulty = true := by
  show ((hexChars zeroHash.val).take miningDifficulty
      == List.replicate miningDifficulty '0') = true
  decide

/-! Helper lemmas about `mining`. -/

/-- Unfolding of `mining` on a non-empty pool and non-empty chain: the
result is the input state with the pool emptied and one block appended that
carries the old pool plus the reward transaction, the proof-of-work nonce
and the last block's hash. -/
theorem mining_step (h : HashFn) (now : ℤ) (bc : Blockchain) (hx : MiningPowHyp h bc)
    (hpool : ¬ bc.transactionPool = []) (lb : Block) (hlb : bc.chain.getLast? = some lb) :
    mining h now bc hx = some
      ({ bc with
          chain := bc.chain ++
            [⟨now,
              powNonce h (h lb)
                (copyTransactionPool
                  { bc with transactionPool := bc.transactionPool ++ [rewardTx bc] })
                (hx lb hlb),
              h lb, bc.transactionPool ++ [rewardTx bc]⟩],
          transactionPool := [] }, true) := by
  simp only [mining, hpool, if_false]
  split
  · simp_all
  · rename_i lb' hlb'
    rw [hlb'] at hlb
    cases hlb
    rfl

/-- Unfolding of `mining` on a non-empty pool but empty chain: `LastBlock()`
indexes `bc.chain[len-1]` out of range, so the call aborts. -/
theorem mining_chain_empty (h : HashFn) (now : ℤ) (bc : Blockchain) (hx : MiningPowHyp h bc)
    (hpool : ¬ bc.transactionPool = []) (hlb : bc.chain.getLast? = none) :
    mining h now bc hx = none := by
  simp only [mining, hpool, if_false]
  split
  · rfl
  · rename_i lb' hlb'
    rw [hlb'] at hlb
    cases hlb

/-! ## C10 — `ValidChain` on the empty chain -/

/-- C10: `ValidChain` reads `chain[0]` before its loop, so on the empty
chain it aborts (out-of-range index) instead of returning a boolean, and on
every non-empty chain it returns a boolean. -/
theorem validChain_empty_aborts (h : HashFn) :
    validChain h [] = none ∧
      ∀ (b : Block) (rest : List Block), (validChain h (b :: rest)).isSome = true :=
  ⟨rfl, fun _ _ => rfl⟩

/-! ## C8 — `Mining` with an empty pool -/

/-- C8: if the transaction pool is empty, `Mining` returns false at once and
the state — in particular the chain — is unchanged. -/
theorem mining_empty_pool_skips (h : HashFn) (now : ℤ) (bc : Blockchain)
    (hx : MiningPowHyp h bc) (hpool : bc.transactionPool = []) :
    mining h now bc hx = some (bc, false) := by
  simp [mining, hpool]

/-- Concrete state for the C8 witness: empty pool, one-block chain. -/
def bcW8 : Blockchain := ⟨[], [blk0], "miner address", 5000⟩

/-- Proof-of-work termination hypothesis for `bcW8` under `constHash`. -/
theorem hxW8 : MiningPowHyp constHash bcW8 := fun _ _ => ⟨0, validProof_constHash _ _ _⟩

/-- Witness for C8 at a concrete state. -/
theorem mining_empty_pool_skips_witness :
    mining constHash 0 bcW8 hxW8 = some (bcW8, false) :=
  mining_empty_pool_skips constHash 0 bcW8 hxW8 rfl

/-! ## C7 — `AddTransaction` verification and balance gate -/

/-- C7: a transaction whose sender is the sentinel `"THE BLOCKCHAIN"` is
appended to the pool with no verification (whatever the key and signature
arguments, nil included) and true is returned; for every other sender the
transaction is appended with result true exactly when the signature
verifies and the computed balance is at least the value, and otherwise
false is returned with the whole state unchanged. -/
theorem addTransaction_verify_spec (verify : VerifyFn) (bc : Blockchain)
    (sender recipient : String) (value : ℚ) (pk : PubKey) (sig : Signature) :
    (∀ (opk : Option PubKey) (osig : Option Signature), sender = miningSender →
      addTransaction verify bc sender recipient value opk osig
        = some ({ bc with transactionPool :=
            bc.transactionPool ++ [⟨sender, recipient, value⟩] }, true))
  ∧ (sender ≠ miningSender →
      (verify pk sig ⟨sender, recipient, value⟩ = true →
          ¬ calculateTotalAmount bc sender < value →
          addTransaction verify bc sender recipient value (some pk) (some sig)
            = some ({ bc with transactionPool :=
                bc.transactionPool ++ [⟨sender, recipient, value⟩] }, true))
      ∧ (verify pk sig ⟨sender, recipient, value⟩ = false ∨
            calculateTotalAmount bc sender < value →
          addTransaction verify bc sender recipient value (some pk) (some sig)
            = some (bc, false))) := by
  refine ⟨fun opk osig hs => ?_, fun hs => ⟨fun hv hb => ?_, fun hfail => ?_⟩⟩
  · simp [addTransaction, hs]
  · simp [addTransaction, hs, hv, hb]
  · rcases hfail with hv | hb
    · simp [addTransaction, hs, hv]
    · rcases hver : verify pk sig ⟨sender, recipient, value⟩ with _ | _
      · simp [addTransaction, hs, hver]
      · simp [addTransaction, hs, hver, hb]

/-- Concrete state for the C7 witness: the chain credits "alice" with 5. -/
def bcW7 : Blockchain :=
  ⟨[], [⟨0, 0, zeroHash, [⟨"coinbase", "alice", 5⟩]⟩], "miner address", 5000⟩

/-- Witness for C7: a verified, funded transfer from "alice" is appended
with result true. -/
theorem addTransaction_verify_spec_witness :
    addTransaction verifyAll bcW7 "alice" "bob" 3 (some ⟨0, 0⟩) (some ⟨0, 0⟩)
      = some ({ bcW7 with transactionPool :=
          bcW7.transactionPool ++ [⟨"alice", "bob", 3⟩] }, true) :=
  ((addTransaction_verify_spec verifyAll bcW7 "alice" "bob" 3 ⟨0, 0⟩ ⟨0, 0⟩).2
    (by decide)).1 rfl
    (by simp [calculateTotalAmount, bcW7]; norm_num)

/-! ## C6 — uniqueness and position of the mining reward -/

/-- C6 (amended): provided no pool entry already has the sentinel sender —
which holds for every pool built from client transactions — the block
produced by `Mining` contains exactly one transaction with sender
`"THE BLOCKCHAIN"`, it is the last one, its recipient is the node's own
address and its value is the reward 1. -/
theorem mining_reward_unique_of_clean_pool (h : HashFn) (now : ℤ) (bc : Blockchain)
    (hx : MiningPowHyp h bc) (hpool : ¬ bc.transactionPool = [])
    (hclean : ∀ t ∈ bc.transactionPool, t.sender ≠ miningSender)
    (bc' : Blockchain) (rep : Bool) (hrun : mining h now bc hx = some (bc', rep)) :
    rep = true ∧ ∃ b, bc'.chain.getLast? = some b ∧
      b.transactions.filter (fun t => t.sender == miningSender) = [rewardTx bc] ∧
      b.transactions.getLast? = some (rewardTx bc) ∧
      (rewardTx bc).sender = miningSender ∧
      (rewardTx bc).recipient = bc.blockchainAddress ∧
      (rewardTx bc).value = miningReward ∧ miningReward = 1 := by
  rcases hlb : bc.chain.getLast? with _ | lb
  · rw [mining_chain_empty h now bc hx hpool hlb] at hrun
    cases hrun
  · rw [mining_step h now bc hx hpool lb hlb] at hrun
    have hpair := Option.some.inj hrun
    injection hpair with hbc' hrep
    subst hbc'
    subst hrep
    have hnil : bc.transactionPool.filter (fun t => t.sender == miningSender) = [] := by
      rw [List.filter_eq_nil_iff]
      intro t ht
      simpa using hclean t ht
    refine ⟨rfl,
      ⟨⟨now,
        powNonce h (h lb)
          (copyTransactionPool
            { bc with transactionPool := bc.transactionPool ++ [rewardTx bc] })
          (hx lb hlb),
        h lb, bc.transactionPool ++ [rewardTx bc]⟩,
        by simp, ?_, by simp, rfl, rfl, rfl, rfl⟩⟩
    simp [List.filter_append, hnil, rewardTx]

/-- Concrete state refuting C6 as frozen: the pool already holds a
sentinel-sender transaction (which `AddTransaction` accepts unverified). -/
def bcC6 : Blockchain := ⟨[⟨"THE BLOCKCHAIN", "mallory", 5⟩], [blk0], "miner address", 5000⟩

/-- Proof-of-work termination hypothesis for `bcC6` under `constHash`. -/
theorem hxC6 : MiningPowHyp constHash bcC6 := fun _ _ => ⟨0, validProof_constHash _ _ _⟩

/-- Number of sentinel-sender transactions in the last block of a `mining`
result. -/
def sentinelTxCount (res : Option (Blockchain × Bool)) : Option ℕ :=
  res.map fun p =>
    ((p.1.chain.getLast?.getD blk0).transactions.filter
      (fun t => t.sender == miningSender)).length

/-- Counterexample to C6 as frozen: from `bcC6`, the mined block contains
two transactions with sender `"THE BLOCKCHAIN"`, not exactly one. -/
theorem mining_reward_not_unique_cex :
    sentinelTxCount (mining constHash 0 bcC6 hxC6) = some 2 := by
  rw [mining_step constHash 0 bcC6 hxC6 (by decide) blk0 rfl]
  simp [sentinelTxCount, bcC6, rewardTx, miningSender]

/-- Concrete clean-pool state for the C6 witness. -/
def bcW6 : Blockchain := ⟨[⟨"alice", "bob", 2⟩], [blk0], "miner address", 5000⟩

/-- Proof-of-work termination hypothesis for `bcW6` under `constHash`. -/
theorem hxW6 : MiningPowHyp constHash bcW6 := fun _ _ => ⟨0, validProof_constHash _ _ _⟩

/-- The state produced by `mining` from `bcW6` (the nonce is the
proof-of-work result). -/
def bcW6' : Blockchain :=
  { bcW6 with
      chain := bcW6.chain ++
        [⟨0,
          powNonce constHash (constHash blk0)
            (copyTransactionPool
              { bcW6 with transactionPool := bcW6.transactionPool ++ [rewardTx bcW6] })
            (hxW6 blk0 rfl),
          constHash blk0, bcW6.transactionPool ++ [rewardTx bcW6]⟩],
      transactionPool := [] }

/-- Witness for the amended C6 at the concrete clean-pool state. -/
theorem mining_reward_unique_witness :
    true = true ∧ ∃ b, bcW6'.chain.getLast? = some b ∧
      b.transactions.filter (fun t => t.sender == miningSender) = [rewardTx bcW6] ∧
      b.transactions.getLast? = some (rewardTx bcW6) ∧
      (rewardTx bcW6).sender = miningSender ∧
      (rewardTx bcW6).recipient = bcW6.blockchainAddress ∧
      (rewardTx bcW6).value = miningReward ∧ miningReward = 1 :=
  mining_reward_unique_of_clean_pool constHash 0 bcW6 hxW6 (by decide) (by decide)
    bcW6' true (mining_step constHash 0 bcW6 hxW6 (by decide) blk0 rfl)

/-! ## C5 — an unreachable peer inside `ResolveConflicts` -/

/-- A nil `GET /chain` response anywhere in the neighbor iteration makes
`ResolveConflicts` abort with a nil-pointer dereference (`resp.StatusCode`
with `resp == nil`), instead of continuing with the remaining peers. -/
theorem resolveLoop_nil_mem (h : HashFn) :
    ∀ (rs : List (Option HttpResp)) (m : ℕ) (l : Option (List Block)),
      none ∈ rs → resolveLoop h rs m l = none := by
  intro rs
  induction rs with
  | nil => intro m l hmem; cases hmem
  | cons o rest ih =>
    intro m l hmem
    cases o with
    | none => rfl
    | some r =>
      have hrest : none ∈ rest := by
        rcases List.mem_cons.mp hmem with hh | ht
        · cases hh
        · exact ht
      rw [resolveLoop]
      split
      · split
        · split
          · rfl
          · exact ih _ _ hrest
          · exact ih _ _ hrest
        · exact ih _ _ hrest
      · exact ih _ _ hrest

/-- Concrete local state for the C5 counter-run. -/
def bcC5 : Blockchain := ⟨[], [blk0], "miner address", 5000⟩

/-- C5 refuted on the code: with one healthy peer followed by one
unreachable peer, `ResolveConflicts` does not return normally — it aborts
(nil-pointer panic) at the unreachable peer. -/
theorem resolveConflicts_unreachable_aborts :
    resolveConflicts constHash bcC5 [some ⟨200, []⟩, none] = none := by
  rw [resolveConflicts, resolveLoop_nil_mem constHash _ _ _ (by simp)]

/-! ## C2 — `ResolveConflicts` adopts the first longest valid chain -/

/-- The chains that `ResolveConflicts` can consider against a threshold
length (spec 4.6: status 200, strictly longer than the local chain, and
passing `ValidChain`), in neighbor iteration order. -/
def chainCandidates (h : HashFn) (threshold : ℕ) (rs : List (Option HttpResp)) :
    List (List Block) :=
  rs.filterMap fun o =>
    match o with
    | none => none
    | some r =>
      if r.statusCode = 200 ∧ threshold < r.body.length ∧ validChain h r.body = some true
      then some r.body else none

/-- Keep the accumulator unless the next chain is strictly longer — on equal
lengths the earlier chain wins, which is the tie-breaking rule of the spec. -/
def pickLonger (acc : Option (List Block)) (c : List Block) : Option (List Block) :=
  match acc with
  | none => some c
  | some d => if d.length < c.length then some c else some d

/-- Candidate list over a healthy response that is adopted-eligible. -/
theorem chainCandidates_cons_pos (h : HashFn) (m : ℕ) (r : HttpResp)
    (rest : List (Option HttpResp))
    (hcond : r.statusCode = 200 ∧ m < r.body.length ∧ validChain h r.body = some true) :
    chainCandidates h m (some r :: rest) = r.body :: chainCandidates h m rest := by
  simp only [chainCandidates, List.filterMap_cons]
  rw [if_pos hcond]

/-- Candidate list over a healthy response that is not adopted-eligible. -/
theorem chainCandidates_cons_neg (h : HashFn) (m : ℕ) (r : HttpResp)
    (rest : List (Option HttpResp))
    (hcond : ¬ (r.statusCode = 200 ∧ m < r.body.length ∧ validChain h r.body = some true)) :
    chainCandidates h m (some r :: rest) = chainCandidates h m rest := by
  simp only [chainCandidates, List.filterMap_cons]
  rw [if_neg hcond]

/-- One `ResolveConflicts` loop step that skips a non-200 response. -/
theorem resolveLoop_cons_not200 (h : HashFn) (r : HttpResp) (rest : List (Option HttpResp))
    (m : ℕ) (l : Option (List Block)) (h200 : ¬ r.statusCode = 200) :
    resolveLoop h (some r :: rest) m l = resolveLoop h rest m l := by
  simp only [resolveLoop]
  rw [if_neg h200]

/-- One `ResolveConflicts` loop step that skips a chain not longer than the
running maximum (its `ValidChain` is never evaluated: short-circuit `&&`). -/
theorem resolveLoop_cons_short (h : HashFn) (r : HttpResp) (rest : List (Option HttpResp))
    (m : ℕ) (l : Option (List Block)) (h200 : r.statusCode = 200)
    (hlen : ¬ m < r.body.length) :
    resolveLoop h (some r :: rest) m l = resolveLoop h rest m l := by
  simp only [resolveLoop]
  rw [if_pos h200, if_neg hlen]

/-- One `ResolveConflicts` loop step that rejects an invalid longer chain. -/
theorem resolveLoop_cons_invalid (h : HashFn) (r : HttpResp) (rest : List (Option HttpResp))
    (m : ℕ) (l : Option (List Block)) (h200 : r.statusCode = 200)
    (hlen : m < r.body.length) (hvc : validChain h r.body = some false) :
    resolveLoop h (some r :: rest) m l = resolveLoop h rest m l := by
  simp only [resolveLoop]
  rw [if_pos h200, if_pos hlen, hvc]

/-- One `ResolveConflicts` loop step that adopts a valid longer chain. -/
theorem resolveLoop_cons_adopt (h : HashFn) (r : HttpResp) (rest : List (Option HttpResp))
    (m : ℕ) (l : Option (List Block)) (h200 : r.statusCode = 200)
    (hlen : m < r.body.length) (hvc : validChain h r.body = some true) :
    resolveLoop h (some r :: rest) m l
      = resolveLoop h rest r.body.length (some r.body) := by
  simp only [resolveLoop]
  rw [if_pos h200, if_pos hlen, hvc]

/-- Raising the threshold filters the candidate list by length. -/
theorem chainCandidates_filter (h : HashFn) (rs : List (Option HttpResp))
    {m m' : ℕ} (hm : m ≤ m') :
    chainCandidates h m' rs
      = (chainCandidates h m rs).filter fun c => decide (m' < c.length) := by
  induction rs with
  | nil => rfl
  | cons o rest ih =>
    cases o with
    | none =>
      simpa only [chainCandidates, List.filterMap_cons] using ih
    | some r =>
      simp only [chainCandidates, List.filterMap_cons] at ih ⊢
      by_cases h200 : r.statusCode = 200
      · by_cases hval : validChain h r.body = some true
        · by_cases hlen' : m' < r.body.length
          · have hlen : m < r.body.length := lt_of_le_of_lt hm hlen'
            simp [h200, hval, hlen', hlen, List.filter_cons, ih]
          · by_cases hlen : m < r.body.length
            · simp [h200, hval, hlen', hlen, List.filter_cons, ih]
            · simp [h200, hval, hlen', hlen, ih]
        · simp [h200, hval, ih]
      · simp [h200, ih]

/-- Candidates shorter than the accumulator never change the fold. -/
theorem foldl_pickLonger_skip :
    ∀ (n : ℕ) (cs : List (List Block)), cs.length ≤ n → ∀ (d : List Block),
      List.foldl pickLonger (some d) (cs.filter fun c => decide (d.length < c.length))
        = List.foldl pickLonger (some d) cs := by
  intro n
  induction n with
  | zero =>
    intro cs hcs d
    rw [List.length_eq_zero.mp (Nat.le_zero.mp hcs)]
    rfl
  | succ n ih =>
    intro cs hcs d
    cases cs with
    | nil => rfl
    | cons c cs' =>
      have hcs' : cs'.length ≤ n := by simpa using hcs
      by_cases hd : d.length < c.length
      · rw [List.filter_cons_of_pos (by simpa using hd)]
        simp only [List.foldl_cons]
        rw [show pickLonger (some d) c = some c from by simp [pickLonger, hd]]
        rw [← ih cs' hcs' c,
          ← ih (cs'.filter fun x => decide (d.length < x.length))
            (le_trans (List.length_filter_le _ _) hcs') c]
        congr 1
        rw [List.filter_filter]
        apply List.filter_congr
        intro x _
        by_cases hx : c.length < x.length
        · simp [hx, lt_trans hd hx]
        · simp [hx]
      · rw [List.filter_cons_of_neg (by simpa using hd)]
        simp only [List.foldl_cons]
        rw [show pickLonger (some d) c = some d from by simp [pickLonger, hd]]
        exact ih cs' hcs' d

/-- The `ResolveConflicts` loop, run on responses with no transport failure,
returns normally and its `longestChain` accumulator is the `pickLonger` fold
of the candidate list. -/
theorem resolveLoop_foldl (h : HashFn) :
    ∀ (rs : List (Option HttpResp)), none ∉ rs → ∀ (m : ℕ) (l : Option (List Block)),
      (∀ c, l = some c → c.length = m) →
      ∃ m', resolveLoop h rs m l
        = some (m', List.foldl pickLonger l (chainCandidates h m rs)) := by
  intro rs
  induction rs with
  | nil => exact fun _ m l _ => ⟨m, rfl⟩
  | cons o rest ih =>
    intro hmem m l hl
    have hrest : none ∉ rest := fun hr => hmem (List.mem_cons_of_mem _ hr)
    cases o with
    | none => exact absurd (List.mem_cons_self _ _) hmem
    | some r =>
      by_cases h200 : r.statusCode = 200
      · by_cases hlen : m < r.body.length
        · rcases hb : r.body with _ | ⟨b0, tl⟩
          · rw [hb] at hlen
            simp at hlen
          · have hvcval : validChain h r.body = some (validFrom h b0 tl) := by
              rw [hb]; rfl
            rcases hvf : validFrom h b0 tl with _ | _
            · rw [hvf] at hvcval
              have hcond : ¬ (r.statusCode = 200 ∧ m < r.body.length ∧
                  validChain h r.body = some true) := by
                simp [hvcval]
              obtain ⟨m', hm'⟩ := ih hrest m l hl
              refine ⟨m', ?_⟩
              rw [resolveLoop_cons_invalid h r rest m l h200 hlen hvcval,
                chainCandidates_cons_neg h m r rest hcond]
              exact hm'
            · rw [hvf] at hvcval
              have hcond : r.statusCode = 200 ∧ m < r.body.length ∧
                  validChain h r.body = some true := ⟨h200, hlen, hvcval⟩
              obtain ⟨m', hm'⟩ := ih hrest r.body.length (some r.body) (by
                intro c hc
                cases hc
                rfl)
              refine ⟨m', ?_⟩
              have hstep : pickLonger l r.body = some r.body := by
                cases hls : l with
                | none => rfl
                | some d =>
                  have := hl d hls
                  simp [pickLonger, this, hlen]
              rw [resolveLoop_cons_adopt h r rest m l h200 hlen hvcval,
                chainCandidates_cons_pos h m r rest hcond, List.foldl_cons, hstep, hm',
                chainCandidates_filter h rest (le_of_lt hlen),
                foldl_pickLonger_skip (chainCandidates h m rest).length _ le_rfl]
        · have hcond : ¬ (r.statusCode = 200 ∧ m < r.body.length ∧
              validChain h r.body = some true) := by
            simp [hlen]
          obtain ⟨m', hm'⟩ := ih hrest m l hl
          refine ⟨m', ?_⟩
          rw [resolveLoop_cons_short h r rest m l h200 hlen,
            chainCandidates_cons_neg h m r rest hcond]
          exact hm'
      · have hcond : ¬ (r.statusCode = 200 ∧ m < r.body.length ∧
            validChain h r.body = some true) := by
          simp [h200]
        obtain ⟨m', hm'⟩ := ih hrest m l hl
        refine ⟨m', ?_⟩
        rw [resolveLoop_cons_not200 h r rest m l h200,
          chainCandidates_cons_neg h m r rest hcond]
        exact hm'

/-- A `pickLonger` fold started from a value stays defined. -/
theorem foldl_pickLonger_isSome :
    ∀ (cs : List (List Block)) (a : List Block),
      (List.foldl pickLonger (some a) cs).isSome = true := by
  intro cs
  induction cs with
  | nil => intro a; rfl
  | cons c cs' ih =>
    intro a
    simp only [List.foldl_cons]
    by_cases hd : a.length < c.length
    · rw [show pickLonger (some a) c = some c from by simp [pickLonger, hd]]
      exact ih c
    · rw [show pickLonger (some a) c = some a from by simp [pickLonger, hd]]
      exact ih a

/-- A `pickLonger` fold from `none` returns `none` only on the empty list. -/
theorem foldl_pickLonger_none_eq_nil (cs : List (List Block))
    (hc : List.foldl pickLonger none cs = none) : cs = [] := by
  cases cs with
  | nil => rfl
  | cons c cs' =>
    simp only [List.foldl_cons, show pickLonger none c = some c from rfl] at hc
    have := foldl_pickLonger_isSome cs' c
    rw [hc] at this
    cases this

/-- What a `pickLonger` fold from an initial best returns: either nothing
beats the initial value, or the result is the first list of maximal length,
strictly longer than the initial value. -/
theorem foldl_pickLonger_spec :
    ∀ (cs : List (List Block)) (a c : List Block),
      List.foldl pickLonger (some a) cs = some c →
      (c = a ∧ ∀ d ∈ cs, d.length ≤ a.length) ∨
      (a.length < c.length ∧ ∃ pre post, cs = pre ++ c :: post ∧
        (∀ d ∈ pre, d.length < c.length) ∧ (∀ d ∈ post, d.length ≤ c.length)) := by
  intro cs
  induction cs with
  | nil =>
    intro a c hc
    simp only [List.foldl_nil, Option.some.injEq] at hc
    exact Or.inl ⟨hc.symm, by simp⟩
  | cons x t ih =>
    intro a c hc
    simp only [List.foldl_cons] at hc
    by_cases hx : a.length < x.length
    · rw [show pickLonger (some a) x = some x from by simp [pickLonger, hx]] at hc
      rcases ih x c hc with ⟨hcx, hall⟩ | ⟨hlt, pre, post, hsplit, hpre, hpost⟩
      · subst hcx
        exact Or.inr ⟨hx, [], t, rfl, by simp, hall⟩
      · refine Or.inr ⟨lt_trans hx hlt, x :: pre, post, by rw [hsplit]; rfl, ?_, hpost⟩
        intro d hd
        rcases List.mem_cons.mp hd with hdx | hdp
        · subst hdx; exact hlt
        · exact hpre d hdp
    · rw [show pickLonger (some a) x = some a from by simp [pickLonger, hx]] at hc
      rcases ih a c hc with ⟨hca, hall⟩ | ⟨hlt, pre, post, hsplit, hpre, hpost⟩
      · refine Or.inl ⟨hca, ?_⟩
        intro d hd
        rcases List.mem_cons.mp hd with hdx | hdp
        · subst hdx; exact le_of_not_lt hx
        · exact hall d hdp
      · refine Or.inr ⟨hlt, x :: pre, post, by rw [hsplit]; rfl, ?_, hpost⟩
        intro d hd
        rcases List.mem_cons.mp hd with hdx | hdp
        · subst hdx; exact lt_of_le_of_lt (le_of_not_lt hx) hlt
        · exact hpre d hdp

/-- A `pickLonger` fold from `none` selects the first element of maximal
length. -/
theorem firstLongest_split (cs : List (List Block)) (c : List Block)
    (hc : List.foldl pickLonger none cs = some c) :
    ∃ pre post, cs = pre ++ c :: post ∧
      (∀ d ∈ pre, d.length < c.length) ∧ (∀ d ∈ post, d.length ≤ c.length) := by
  cases cs with
  | nil => cases hc
  | cons x t =>
    simp only [List.foldl_cons, show pickLonger none x = some x from rfl] at hc
    rcases foldl_pickLonger_spec t x c hc with ⟨hcx, hall⟩ | ⟨hlt, pre, post, hsplit, hpre, hpost⟩
    · subst hcx
      exact ⟨[], t, rfl, by simp, hall⟩
    · refine ⟨x :: pre, post, by rw [hsplit]; rfl, ?_, hpost⟩
      intro d hd
      rcases List.mem_cons.mp hd with hdx | hdp
      · subst hdx; exact hlt
      · exact hpre d hdp

/-- Every candidate is strictly longer than the threshold, passes
`ValidChain`, and is the body of a status-200 response of some neighbor. -/
theorem chainCandidates_mem (h : HashFn) (m : ℕ) (rs : List (Option HttpResp))
    (c : List Block) (hc : c ∈ chainCandidates h m rs) :
    m < c.length ∧ validChain h c = some true ∧
      ∃ r : HttpResp, some r ∈ rs ∧ r.statusCode = 200 ∧ r.body = c := by
  obtain ⟨o, ho, hoc⟩ := List.mem_filterMap.mp hc
  cases o with
  | none => cases hoc
  | some r =>
    have hoc2 : (if r.statusCode = 200 ∧ m < r.body.length ∧ validChain h r.body = some true
        then some r.body else none) = some c := hoc
    by_cases hcond : r.statusCode = 200 ∧ m < r.body.length ∧ validChain h r.body = some true
    · rw [if_pos hcond] at hoc2
      cases hoc2
      exact ⟨hcond.2.1, hcond.2.2, r, ho, hcond.1, rfl⟩
    · rw [if_neg hcond] at hoc2
      cases hoc2

/-- C2: when every neighbor answers (no transport failure),
`ResolveConflicts` returns normally; on replacement (`rep = true`) the
adopted chain passes `ValidChain`, is strictly longer than the prior local
chain, and is the first candidate of maximal length among the neighbors'
chains that pass `ValidChain` and are strictly longer than the local chain
(candidates listed in neighbor iteration order, so earlier wins ties); the
chain length never decreases; without replacement the state is unchanged
and there was no candidate at all. -/
theorem resolveConflicts_adopts_first_longest (h : HashFn) (bc : Blockchain)
    (rs : List (Option HttpResp)) (hrs : none ∉ rs) (bc' : Blockchain) (rep : Bool)
    (hrun : resolveConflicts h bc rs = some (bc', rep)) :
    bc.chain.length ≤ bc'.chain.length ∧
    (rep = true →
      validChain h bc'.chain = some true ∧
      bc.chain.length < bc'.chain.length ∧
      ∃ pre post, chainCandidates h bc.chain.length rs = pre ++ bc'.chain :: post ∧
        (∀ d ∈ pre, d.length < bc'.chain.length) ∧
        (∀ d ∈ post, d.length ≤ bc'.chain.length)) ∧
    (rep = false → bc' = bc ∧ chainCandidates h bc.chain.length rs = []) := by
  obtain ⟨m', hloop⟩ := resolveLoop_foldl h rs hrs bc.chain.length none
    (by intro c hc; cases hc)
  rcases hfold : List.foldl pickLonger none (chainCandidates h bc.chain.length rs)
    with _ | c
  · rw [hfold] at hloop
    rw [resolveConflicts, hloop] at hrun
    have hpair := Option.some.inj hrun
    injection hpair with hbc' hrep
    subst hbc'
    subst hrep
    exact ⟨le_rfl, by simp, fun _ => ⟨rfl, foldl_pickLonger_none_eq_nil _ hfold⟩⟩
  · rw [hfold] at hloop
    rw [resolveConflicts, hloop] at hrun
    have hpair := Option.some.inj hrun
    injection hpair with hbc' hrep
    subst hbc'
    subst hrep
    obtain ⟨pre, post, hsplit, hpre, hpost⟩ := firstLongest_split _ c hfold
    have hmem : c ∈ chainCandidates h bc.chain.length rs := by
      rw [hsplit]
      exact List.mem_append_right _ (List.mem_cons_self _ _)
    obtain ⟨hlen, hvalid, _⟩ := chainCandidates_mem h _ rs c hmem
    exact ⟨le_of_lt hlen, fun _ => ⟨hvalid, hlen, pre, post, hsplit, hpre, hpost⟩,
      by simp⟩

/-- Concrete local state for the C2 witness. -/
def bcW2 : Blockchain := ⟨[], [blk0], "miner address", 5000⟩

/-- A valid two-block peer chain under `constHash`. -/
def chainW2 : List Block := [blk0, ⟨1, 0, zeroHash, []⟩]

/-- The C2 witness responses: one healthy peer offering `chainW2`. -/
def rsW2 : List (Option HttpResp) := [some ⟨200, chainW2⟩]

/-- The state after adopting `chainW2`. -/
def bcW2' : Blockchain := { bcW2 with chain := chainW2 }

/-- Witness for C2 at a concrete neighbor response list. -/
theorem resolveConflicts_adopts_first_longest_witness :
    bcW2.chain.length ≤ bcW2'.chain.length ∧
    (true = true →
      validChain constHash bcW2'.chain = some true ∧
      bcW2.chain.length < bcW2'.chain.length ∧
      ∃ pre post, chainCandidates constHash bcW2.chain.length rsW2
          = pre ++ bcW2'.chain :: post ∧
        (∀ d ∈ pre, d.length < bcW2'.chain.length) ∧
        (∀ d ∈ post, d.length ≤ bcW2'.chain.length)) ∧
    (true = false → bcW2' = bcW2 ∧ chainCandidates constHash bcW2.chain.length rsW2 = []) :=
  resolveConflicts_adopts_first_longest constHash bcW2 rsW2 (by decide) bcW2' true (by decide)

/-! ## C4 — what chain replacement does to the transaction pool -/

/-- C4 (amended): when `ResolveConflicts` adopts a chain (the
`PUT /consensus` path), the node's chain equals the chain of a status-200
peer response that passes `ValidChain` and is strictly longer than the
prior local chain — and the transaction pool is left exactly as it was
(`ResolveConflicts` never touches it; in particular it is not cleared and
nothing is re-added from dropped blocks). -/
theorem resolveConflicts_adopt_pool_unchanged (h : HashFn) (bc : Blockchain)
    (rs : List (Option HttpResp)) (hrs : none ∉ rs) (bc' : Blockchain)
    (hrun : resolveConflicts h bc rs = some (bc', true)) :
    bc'.transactionPool = bc.transactionPool ∧
    bc'.blockchainAddress = bc.blockchainAddress ∧
    ∃ r : HttpResp, some r ∈ rs ∧ r.statusCode = 200 ∧ bc'.chain = r.body ∧
      validChain h bc'.chain = some true ∧ bc.chain.length < bc'.chain.length := by
  obtain ⟨m', hloop⟩ := resolveLoop_foldl h rs hrs bc.chain.length none
    (by intro c hc; cases hc)
  rcases hfold : List.foldl pickLonger none (chainCandidates h bc.chain.length rs)
    with _ | c
  · rw [hfold] at hloop
    rw [resolveConflicts, hloop] at hrun
    have hpair := Option.some.inj hrun
    injection hpair with _ hrep
    cases hrep
  · rw [hfold] at hloop
    rw [resolveConflicts, hloop] at hrun
    have hpair := Option.some.inj hrun
    injection hpair with hbc' _
    subst hbc'
    obtain ⟨pre, post, hsplit, _, _⟩ := firstLongest_split _ c hfold
    have hmem : c ∈ chainCandidates h bc.chain.length rs := by
      rw [hsplit]
      exact List.mem_append_right _ (List.mem_cons_self _ _)
    obtain ⟨hlen, hvalid, r, hr, h200, hbody⟩ := chainCandidates_mem h _ rs c hmem
    exact ⟨rfl, rfl, r, hr, h200, hbody.symm, hvalid, hlen⟩

/-- Concrete state for C4: the pool holds one pending transaction when a
longer valid peer chain arrives. -/
def bcC4 : Blockchain := ⟨[⟨"alice", "bob", 2⟩], [blk0], "miner address", 5000⟩

/-- The C4 responses: one healthy peer offering the valid chain `chainW2`. -/
def rsC4 : List (Option HttpResp) := [some ⟨200, chainW2⟩]

/-- The state of `bcC4` after adopting `chainW2`. -/
def bcC4adopt : Blockchain := { bcC4 with chain := chainW2 }

/-- Counterexample to C4 as frozen: the adoption goes through, but the
transaction pool is not cleared — it still holds the pending transaction. -/
theorem resolveConflicts_pool_not_cleared_cex :
    resolveConflicts constHash bcC4 rsC4 = some (bcC4adopt, true) ∧
    bcC4adopt.transactionPool = bcC4.transactionPool ∧
    bcC4adopt.transactionPool ≠ [] :=
  ⟨rfl, rfl, by decide⟩

/-- Witness for the amended C4 at the same concrete adoption. -/
theorem resolveConflicts_adopt_pool_unchanged_witness :
    bcC4adopt.transactionPool = bcC4.transactionPool ∧
    bcC4adopt.blockchainAddress = bcC4.blockchainAddress ∧
    ∃ r : HttpResp, some r ∈ rsC4 ∧ r.statusCode = 200 ∧ bcC4adopt.chain = r.body ∧
      validChain constHash bcC4adopt.chain = some true ∧
      bcC4.chain.length < bcC4adopt.chain.length :=
  resolveConflicts_adopt_pool_unchanged constHash bcC4 rsC4 (by decide) bcC4adopt rfl

/-! ## C1 — the Block JSON round trip -/

/-- JSON values at the level `encoding/json` structures them: numbers
(carried exactly), strings, arrays and key-ordered objects. -/
inductive Jval where
  | jnum (q : ℚ)
  | jstr (s : String)
  | jarr (vs : List Jval)
  | jobj (fields : List (String × Jval))

/-- ASCII lower-casing of one character. -/
def charFold (c : Char) : Char :=
  if 65 ≤ c.toNat ∧ c.toNat ≤ 90 then Char.ofNat (c.toNat + 32) else c

/-- ASCII-adequate model of Go's case-insensitive key/field-name match
(`strings.EqualFold`); every key involved here is plain ASCII. -/
def eqFold (a b : String) : Bool := a.data.map charFold == b.data.map charFold

/-- Deliver the JSON object field matching a struct field/tag name, Go's
match being case-insensitive (Go prefers exact matches, which makes no
difference for the key sets below). -/
def jlookup (fields : List (String × Jval)) (name : String) : Option Jval :=
  (fields.find? fun kv => eqFold kv.1 name).map fun kv => kv.2

/-- Unfolding of `jlookup` over one field. -/
theorem jlookup_cons (k : String) (v : Jval) (rest : List (String × Jval)) (name : String) :
    jlookup ((k, v) :: rest) name
      = if eqFold k name then some v else jlookup rest name := by
  by_cases hk : eqFold k name
  · simp [jlookup, List.find?, hk]
  · simp only [Bool.not_eq_true] at hk
    simp [jlookup, List.find?, hk]

/-- Decode an `int64`/`int` target field: an absent key leaves the zero
value, a matched key must hold an integral number. -/
def jFieldInt (fields : List (String × Jval)) (name : String) : Option ℤ :=
  match jlookup fields name with
  | none => some 0
  | some (.jnum q) => if q.den = 1 then some q.num else none
  | some _ => none

/-- Decode a `string` target field: an absent key leaves the empty string. -/
def jFieldStr (fields : List (String × Jval)) (name : String) : Option String :=
  match jlookup fields name with
  | none => some ""
  | some (.jstr s) => some s
  | some _ => none

/-- Decode a `float32` target field: an absent key leaves zero. -/
def jFieldQ (fields : List (String × Jval)) (name : String) : Option ℚ :=
  match jlookup fields name with
  | none => some 0
  | some (.jnum q) => some q
  | some _ => none

/-- Value of a hex digit accepted by `encoding/hex` (0-9, a-f, A-F). -/
def hexDigitVal (c : Char) : Option (Fin 16) :=
  if h1 : 48 ≤ c.toNat ∧ c.toNat ≤ 57 then some ⟨c.toNat - 48, by omega⟩
  else if h2 : 97 ≤ c.toNat ∧ c.toNat ≤ 102 then some ⟨c.toNat - 87, by omega⟩
  else if h3 : 65 ≤ c.toNat ∧ c.toNat ≤ 70 then some ⟨c.toNat - 55, by omega⟩
  else none

/-- Model of `hex.DecodeString` with its error discarded, as the source
does: decode byte pairs until an invalid character or an odd tail, and
return whatever was decoded so far. -/
def hexDecode : List Char → List Byte
  | c1 :: c2 :: rest =>
    (match hexDigitVal c1, hexDigitVal c2 with
      | some hi, some lo =>
        ⟨hi.val * 16 + lo.val, by
          have hh := hi.isLt
          have hl := lo.isLt
          omega⟩ :: hexDecode rest
      | _, _ => [])
  | _ => []

/-- Model of `(*Transaction).MarshalJSON`: keys from the `json:` struct
tags, each `omitempty`, so zero-valued fields are dropped. -/
def marshalTransaction (t : Transaction) : Jval :=
  .jobj ((if t.sender = "" then [] else [("sender_blockchain_address", Jval.jstr t.sender)])
    ++ (if t.recipient = "" then []
        else [("recipient_blockchain_address", Jval.jstr t.recipient)])
    ++ (if t.value = 0 then [] else [("value", Jval.jnum t.value)]))

/-- Element-wise decoding of a JSON array of transactions (the decoder
fails when any element fails). -/
def unmarshalTxList (dec : Jval → Option Transaction) : List Jval → Option (List Transaction)
  | [] => some []
  | j :: rest => do
    let t ← dec j
    let ts ← unmarshalTxList dec rest
    some (t :: ts)

/-- Model of `(*Transaction).UnmarshalJSON`: its target struct has no
`json:` tags, so the expected keys are the Go field names `Sender`,
`Recipient`, `Value` (matched case-insensitively). -/
def unmarshalTransaction (j : Jval) : Option Transaction :=
  match j with
  | .jobj fields => do
    let sender ← jFieldStr fields "Sender"
    let recipient ← jFieldStr fields "Recipient"
    let value ← jFieldQ fields "Value"
    some ⟨sender, recipient, value⟩
  | _ => none

/-- Model of `(*Block).MarshalJSON`.  The source tags its anonymous struct
with tag key `j` (`j:"timestamp"` and so on), not `json:`; `encoding/json`
ignores unknown tag keys, so the emitted object keys are the Go field names
`Timestamp`, `Nonce`, `PreviousHash` (the digest as a lowercase hex
string), `Transactions`. -/
def marshalBlock (b : Block) : Jval :=
  .jobj [("Timestamp", .jnum (b.timestamp : ℚ)),
         ("Nonce", .jnum (b.nonce : ℚ)),
         ("PreviousHash", .jstr (hexString b.previousHash)),
         ("Transactions", .jarr (b.transactions.map marshalTransaction))]

/-- Model of `(*Block).UnmarshalJSON`: `json.Unmarshal` fills the fields
tagged `timestamp`, `nonce`, `previous_hash` and the untagged field
`Transactions` (keys matched case-insensitively, unknown keys ignored);
afterwards the `previous_hash` string is hex-decoded (error discarded) and
`ph[:32]` is copied into the 32-byte array — a slice-bounds panic (`none`)
when fewer than 32 bytes were decoded. -/
def unmarshalBlock (j : Jval) : Option Block :=
  match j with
  | .jobj fields => do
    let ts ← jFieldInt fields "timestamp"
    let nonce ← jFieldInt fields "nonce"
    let txsJ ← (match jlookup fields "Transactions" with
      | none => some ([] : List Jval)
      | some (.jarr vs) => some vs
      | some _ => none)
    let txs ← unmarshalTxList unmarshalTransaction txsJ
    let phStr ← jFieldStr fields "previous_hash"
    let ph := hexDecode phStr.data
    if h32 : 32 ≤ ph.length then
      some ⟨ts, nonce, ⟨ph.take 32, by rw [List.length_take]; omega⟩, txs⟩
    else none
  | _ => none

/-- Decoding a marshalled transaction succeeds (so the block-level decode
reaches the `previous_hash` step): no marshalled key matches `Sender` or
`Recipient`, and only the `value` key matches `Value`. -/
theorem unmarshalTransaction_marshal (t : Transaction) :
    unmarshalTransaction (marshalTransaction t)
      = some ⟨"", "", if t.value = 0 then 0 else t.value⟩ := by
  rcases t with ⟨s, r, v⟩
  have e1 : eqFold "sender_blockchain_address" "Sender" = false := by decide
  have e2 : eqFold "recipient_blockchain_address" "Sender" = false := by decide
  have e3 : eqFold "value" "Sender" = false := by decide
  have e4 : eqFold "sender_blockchain_address" "Recipient" = false := by decide
  have e5 : eqFold "recipient_blockchain_address" "Recipient" = false := by decide
  have e6 : eqFold "value" "Recipient" = false := by decide
  have e7 : eqFold "sender_blockchain_address" "Value" = false := by decide
  have e8 : eqFold "recipient_blockchain_address" "Value" = false := by decide
  have e9 : eqFold "value" "Value" = true := by decide
  by_cases hs : s = "" <;> by_cases hr : r = "" <;> by_cases hv : v = 0 <;>
    simp [marshalTransaction, unmarshalTransaction, jFieldStr, jFieldQ, hs, hr, hv,
      jlookup_cons, e1, e2, e3, e4, e5, e6, e7, e8, e9, jlookup]

/-- Decoding a marshalled transaction list succeeds. -/
theorem mapM_unmarshalTransaction_marshal (l : List Transaction) :
    unmarshalTxList unmarshalTransaction (l.map marshalTransaction)
      = some (l.map fun t => (⟨"", "", if t.value = 0 then 0 else t.value⟩ : Transaction)) := by
  induction l with
  | nil => rfl
  | cons t l ih =>
    simp [unmarshalTxList, unmarshalTransaction_marshal, ih]

/-- C1 refuted on the code: decoding the output of `Block.MarshalJSON` with
`Block.UnmarshalJSON` never returns a block at all.  The marshaller's
struct tags use the key `j`, not `json`, so the digest is emitted under the
key `PreviousHash`, which matches neither the tag `previous_hash` nor any
other target field; the decoder therefore hex-decodes the empty string and
panics slicing `ph[:32]`. -/
theorem block_json_roundtrip_aborts (b : Block) :
    unmarshalBlock (marshalBlock b) = none := by
  have e1 : eqFold "Timestamp" "timestamp" = true := by decide
  have e2 : eqFold "Timestamp" "nonce" = false := by decide
  have e3 : eqFold "Nonce" "nonce" = true := by decide
  have e4 : eqFold "Timestamp" "Transactions" = false := by decide
  have e5 : eqFold "Nonce" "Transactions" = false := by decide
  have e6 : eqFold "PreviousHash" "Transactions" = false := by decide
  have e7 : eqFold "Transactions" "Transactions" = true := by decide
  have e8 : eqFold "Timestamp" "previous_hash" = false := by decide
  have e9 : eqFold "Nonce" "previous_hash" = false := by decide
  have e10 : eqFold "PreviousHash" "previous_hash" = false := by decide
  have e11 : eqFold "Transactions" "previous_hash" = false := by decide
  simp [unmarshalBlock, marshalBlock, jFieldInt, jFieldStr, jlookup_cons,
    e1, e2, e3, e4, e5, e6, e7, e8, e9, e10, e11, jlookup,
    Rat.den_intCast, mapM_unmarshalTransaction_marshal, hexDecode]

/-! ## C3 — `ValidProof` and `ProofOfWork` -/

/-- Model of `(*Blockchain).ProofOfWork()`: search from nonce 0 over a
value copy of the pool, with `previous_hash` the hash of the last block.
`LastBlock()` indexes `chain[len-1]`, so the chain must be non-empty; `hx`
is the termination condition of the Go search loop. -/
def proofOfWork (h : HashFn) (bc : Blockchain) (hne : bc.chain ≠ [])
    (hx : ∃ n : ℕ, validProof h n (h (bc.chain.getLast hne)) (copyTransactionPool bc)
      miningDifficulty = true) : ℤ :=
  powNonce h (h (bc.chain.getLast hne)) (copyTransactionPool bc) hx

/-- `CopyTransactionPool` is a value copy: it returns the pool itself. -/
theorem copyTransactionPool_eq (bc : Blockchain) :
    copyTransactionPool bc = bc.transactionPool := by
  show bc.transactionPool.map (fun t => t) = bc.transactionPool
  simp

/-- C3: `ValidProof(nonce, prev, txs, D)` holds exactly when the lowercase
hex digest of the probe block built with timestamp 0 starts with D `'0'`
characters (stated for `D ≤ 64`, the digest's hex length — Go's string
slicing `s[:D]` would panic beyond it, and every call site uses D = 3); and
`ProofOfWork` returns the least nonce from 0 satisfying `ValidProof` over a
value copy of the pool and the last block's hash, at the fixed difficulty
3. -/
theorem validProof_pow_spec (h : HashFn) :
    (∀ (D : ℕ) (nonce : ℤ) (p : Hash32) (txs : List Transaction), D ≤ 64 →
      (validProof h nonce p txs D = true ↔
        (hexChars (h ⟨0, nonce, p, txs⟩).val).take D = List.replicate D '0'))
  ∧ (∀ (bc : Blockchain) (hne : bc.chain ≠ [])
      (hx : ∃ n : ℕ, validProof h n (h (bc.chain.getLast hne)) (copyTransactionPool bc)
        miningDifficulty = true),
      copyTransactionPool bc = bc.transactionPool ∧
      miningDifficulty = 3 ∧
      0 ≤ proofOfWork h bc hne hx ∧
      validProof h (proofOfWork h bc hne hx) (h (bc.chain.getLast hne))
        bc.transactionPool miningDifficulty = true ∧
      ∀ n : ℕ, (n : ℤ) < proofOfWork h bc hne hx →
        validProof h n (h (bc.chain.getLast hne)) bc.transactionPool
          miningDifficulty = false) := by
  constructor
  · intro D nonce p txs _
    simp only [validProof]
    exact beq_iff_eq
  · intro bc hne hx
    refine ⟨copyTransactionPool_eq bc, rfl, Int.natCast_nonneg _, ?_, ?_⟩
    · rw [← copyTransactionPool_eq bc]
      exact Nat.find_spec hx
    · intro n hn
      have hlt : n < Nat.find hx := by
        have : (n : ℤ) < (Nat.find hx : ℤ) := hn
        exact_mod_cast this
      have hmin := Nat.find_min hx hlt
      rw [← copyTransactionPool_eq bc]
      simpa using hmin

/-- The chain of `bcW8` is non-empty. -/
theorem hneW3 : bcW8.chain ≠ [] := by decide

/-- Proof-of-work termination for `bcW8` under `constHash`. -/
theorem hxW3 : ∃ n : ℕ, validProof constHash n (constHash (bcW8.chain.getLast hneW3))
    (copyTransactionPool bcW8) miningDifficulty = true :=
  ⟨0, validProof_constHash _ _ _⟩

/-- Witness for C3 at `constHash` and the concrete state `bcW8`. -/
theorem validProof_pow_spec_witness :
    (validProof constHash 0 zeroHash [] 3 = true ↔
      (hexChars (constHash ⟨0, 0, zeroHash, []⟩).val).take 3
        = List.replicate 3 '0') ∧
    (copyTransactionPool bcW8 = bcW8.transactionPool ∧
      miningDifficulty = 3 ∧
      0 ≤ proofOfWork constHash bcW8 hneW3 hxW3 ∧
      validProof constHash (proofOfWork constHash bcW8 hneW3 hxW3)
        (constHash (bcW8.chain.getLast hneW3)) bcW8.transactionPool
        miningDifficulty = true ∧
      ∀ n : ℕ, (n : ℤ) < proofOfWork constHash bcW8 hneW3 hxW3 →
        validProof constHash n (constHash (bcW8.chain.getLast hneW3))
          bcW8.transactionPool miningDifficulty = false) :=
  ⟨(validProof_pow_spec constHash).1 3 0 zeroHash [] (by decide),
    (validProof_pow_spec constHash).2 bcW8 hneW3 hxW3⟩

/-! ## C9 — wallet address derivation and its checksum

`wallet.NewWallet` builds the address with the `btcsuite/btcutil/base58`
library; the library's `Encode`/`Decode` (big-endian base-256 value to
base-58 digits, one `'1'` per leading zero byte) are modelled below from
their well-known semantics, since the library is an external dependency of
the repository. -/

/-- The base58 alphabet of `btcutil/base58` (digits and letters without
0, O, I, l). -/
def b58Alphabet : List Char :=
  ['1', '2', '3', '4', '5', '6', '7', '8', '9',
   'A', 'B', 'C', 'D', 'E', 'F', 'G', 'H', 'J', 'K', 'L', 'M', 'N', 'P',
   'Q', 'R', 'S', 'T', 'U', 'V', 'W', 'X', 'Y', 'Z',
   'a', 'b', 'c', 'd', 'e', 'f', 'g', 'h', 'i', 'j', 'k', 'm', 'n', 'o',
   'p', 'q', 'r', 's', 't', 'u', 'v', 'w', 'x', 'y', 'z']

/-- Digit value of a base58 character (`none` for an invalid character). -/
def b58Index (c : Char) : Option ℕ := b58Alphabet.findIdx? (· == c)

/-- Big-endian byte interpretation of a byte slice (`big.Int.SetBytes`). -/
def beBytesVal (bs : List Byte) : ℕ := bs.foldl (fun a b => a * 256 + b.val) 0

/-- Minimal big-endian bytes of a natural number (`big.Int.Bytes`; empty
for zero). -/
def natToBytesBE (n : ℕ) : List Byte :=
  ((Nat.digits 256 n).map fun d => (⟨d % 256, Nat.mod_lt _ (by norm_num)⟩ : Byte)).reverse

/-- Count of leading zero bytes. -/
def leadingZeros (bs : List Byte) : ℕ :=
  (bs.takeWhile fun b => b == (0 : Byte)).length

/-- Model of `base58.Encode`: a `'1'` per leading zero byte, then the
base-58 digits of the big-endian value, most significant first.  (The
library produces the digits least significant first by repeated
`DivMod(x, 58)` — which is exactly `Nat.digits 58` — and reverses at the
end.) -/
def base58Encode (bs : List Byte) : List Char :=
  List.replicate (leadingZeros bs) '1'
    ++ ((Nat.digits 58 (beBytesVal bs)).map fun d => b58Alphabet.getD d ' ').reverse

/-- Model of `base58.Decode`: fold `answer*58 + digit` over the characters
(an invalid character aborts with the empty result), then prepend a zero
byte per leading `'1'`. -/
def base58Decode (s : List Char) : List Byte :=
  if s.all fun c => (b58Index c).isSome then
    List.replicate ((s.takeWhile fun c => c == '1').length) (0 : Byte)
      ++ natToBytesBE (s.foldl (fun a c => a * 58 + ((b58Index c).getD 0)) 0)
  else []

/-- Steps 2-8 of `wallet.NewWallet`, for a key whose public coordinates
serialize to `pubX` and `pubY`: the 21-byte versioned RIPEMD-160 payload
followed by the 4-byte double-SHA-256 checksum. -/
def walletAddressBytes (sha256B : List Byte → Hash32) (ripemd160B : List Byte → Digest20)
    (pubX pubY : List Byte) : List Byte :=
  let digest2 := sha256B (pubX ++ pubY)
  let digest3 := ripemd160B digest2.val
  let vb4 : List Byte := 0 :: digest3.val
  let digest5 := sha256B vb4
  let digest6 := sha256B digest5.val
  let checksum := digest6.val.take 4
  vb4 ++ checksum

/-- Step 9 of `wallet.NewWallet`: the textual blockchain address. -/
def walletAddress (sha256B : List Byte → Hash32) (ripemd160B : List Byte → Digest20)
    (pubX pubY : List Byte) : List Char :=
  base58Encode (walletAddressBytes sha256B ripemd160B pubX pubY)

/-- Looking an alphabet character up returns its digit. -/
theorem b58Index_getD : ∀ d : ℕ, d < 58 → b58Index (b58Alphabet.getD d ' ') = some d := by
  decide

/-- Only digit 0 maps to the character `'1'`. -/
theorem b58Alphabet_getD_ne_one : ∀ d : ℕ, d < 58 → 0 < d → b58Alphabet.getD d ' ' ≠ '1' := by
  decide

/-- The character `'1'` is digit 0. -/
theorem b58Index_one : b58Index '1' = some 0 := by decide

/-- The byte fold of `big.Int.SetBytes` computes the big-endian value. -/
theorem foldl_bytes_eq_ofDigits :
    ∀ (bs : List Byte) (a : ℕ),
      bs.foldl (fun a b => a * 256 + b.val) a
        = a * 256 ^ bs.length + Nat.ofDigits 256 (bs.map Fin.val).reverse := by
  intro bs
  induction bs with
  | nil => intro a; simp [Nat.ofDigits_nil]
  | cons b t ih =>
    intro a
    simp only [List.foldl_cons, ih, List.map_cons, List.reverse_cons, Nat.ofDigits_append,
      List.length_cons, List.length_reverse, List.length_map, Nat.ofDigits_singleton]
    ring

/-- The decode fold over the encoded digit characters recovers the value. -/
theorem foldl_b58_digits :
    ∀ (ds : List ℕ), (∀ d ∈ ds, d < 58) → ∀ a : ℕ,
      List.foldl (fun a c => a * 58 + ((b58Index c).getD 0)) a
          ((ds.map fun d => b58Alphabet.getD d ' ').reverse)
        = a * 58 ^ ds.length + Nat.ofDigits 58 ds := by
  intro ds
  induction ds with
  | nil => intro _ a; simp [Nat.ofDigits_nil]
  | cons d t ih =>
    intro hlt a
    have hd : d < 58 := hlt d (List.mem_cons_self _ _)
    have ht : ∀ x ∈ t, x < 58 := fun x hx => hlt x (List.mem_cons_of_mem _ hx)
    simp only [List.map_cons, List.reverse_cons, List.foldl_append, ih ht a,
      List.foldl_cons, List.foldl_nil, b58Index_getD d hd, Option.getD_some,
      Nat.ofDigits_cons, List.length_cons]
    ring

/-- The decode fold ignores a leading-`'1'` prefix. -/
theorem foldl_b58_ones (z : ℕ) :
    List.foldl (fun a c => a * 58 + ((b58Index c).getD 0)) 0 (List.replicate z '1') = 0 := by
  induction z with
  | zero => rfl
  | succ z ih =>
    simpa [List.replicate_succ, b58Index_one] using ih

/-- The byte fold ignores a leading zero-byte prefix. -/
theorem foldl_bytes_zeros (z : ℕ) :
    List.foldl (fun a b => a * 256 + Fin.val b) 0 (List.replicate z (0 : Byte)) = 0 := by
  induction z with
  | zero => rfl
  | succ z ih =>
    simpa [List.replicate_succ] using ih

/-- `takeWhile` runs through a satisfying prefix. -/
theorem takeWhile_replicate_append {α : Type} (p : α → Bool) (x : α) (hx : p x = true)
    (z : ℕ) (l : List α) :
    (List.replicate z x ++ l).takeWhile p = List.replicate z x ++ l.takeWhile p := by
  induction z with
  | zero => rfl
  | succ z ih =>
    simp [List.replicate_succ, List.takeWhile_cons, hx, ih]

/-- A byte list headed by a nonzero byte has a positive big-endian value. -/
theorem ofDigits_head_pos (b : Byte) (t : List Byte) (hb : b ≠ 0) :
    0 < Nat.ofDigits 256 (((b :: t).map Fin.val).reverse) := by
  simp only [List.map_cons, List.reverse_cons, Nat.ofDigits_append, Nat.ofDigits_singleton]
  have hbv : 0 < b.val := by
    rcases Nat.eq_zero_or_pos b.val with h0 | h
    · exact absurd (Fin.ext h0) hb
    · exact h
  have h1 : 0 < 256 ^ ((t.map Fin.val).reverse).length * b.val :=
    Nat.mul_pos (pow_pos (by norm_num) _) hbv
  omega

/-- `big.Int.Bytes ∘ big.Int.SetBytes` is the identity on byte lists with
no leading zero byte. -/
theorem natToBytesBE_beVal (rest : List Byte) (hhead : ∀ b t, rest = b :: t → b ≠ 0) :
    natToBytesBE (Nat.ofDigits 256 (rest.map Fin.val).reverse) = rest := by
  rcases hr : rest with _ | ⟨b, t⟩
  · simp [natToBytesBE, Nat.ofDigits_nil]
  · have hb : b ≠ 0 := hhead b t hr
    have hlt : ∀ l ∈ (((b :: t).map Fin.val).reverse), l < 256 := by
      intro l hl
      rw [List.mem_reverse] at hl
      obtain ⟨x, _, hx⟩ := List.mem_map.mp hl
      exact hx ▸ x.isLt
    have hlast : ∀ (h : (((b :: t).map Fin.val).reverse) ≠ []),
        (((b :: t).map Fin.val).reverse).getLast h ≠ 0 := by
      intro h
      have hgl : (((b :: t).map Fin.val).reverse).getLast? = some b.val := by
        rw [List.getLast?_reverse]
        rfl
      rw [List.getLast?_eq_getLast _ h] at hgl
      have hbv : b.val ≠ 0 := fun h0 => hb (Fin.ext h0)
      intro h0
      rw [h0] at hgl
      exact hbv (Option.some.inj hgl).symm
    have hdig := Nat.digits_ofDigits 256 (by norm_num) _ hlt hlast
    rw [natToBytesBE, hdig]
    rw [List.map_reverse, List.reverse_reverse, List.map_map]
    have hpt : ∀ x : Byte,
        ((fun d => (⟨d % 256, Nat.mod_lt _ (by norm_num)⟩ : Byte)) ∘ Fin.val) x = x := by
      intro x
      apply Fin.ext
      simp [Nat.mod_eq_of_lt x.isLt]
    rw [List.map_congr_left fun x _ => hpt x]
    simp

/-- The head of a non-empty `dropWhile` result fails the predicate. -/
theorem dropWhile_eq_cons_head_false {α : Type} (p : α → Bool) :
    ∀ (l : List α) (b : α) (t : List α), l.dropWhile p = b :: t → p b = false := by
  intro l
  induction l with
  | nil => intro b t h; cases h
  | cons x xs ih =>
    intro b t h
    by_cases hx : p x = true
    · rw [List.dropWhile_cons_of_pos hx] at h
      exact ih b t h
    · rw [List.dropWhile_cons_of_neg hx] at h
      cases h
      simpa using hx

/-- Round trip of the base58 coding: decoding an encoded byte slice returns
the slice, leading zero bytes included. -/
theorem base58_roundtrip (bs : List Byte) :
    base58Decode (base58Encode bs) = bs := by
  have htake : bs.takeWhile (fun b => b == (0 : Byte))
      = List.replicate (leadingZeros bs) (0 : Byte) := by
    rw [List.eq_replicate_iff]
    refine ⟨rfl, ?_⟩
    intro x hx
    have := List.mem_takeWhile_imp hx
    simpa using this
  have hsplit : List.replicate (leadingZeros bs) (0 : Byte)
      ++ bs.dropWhile (fun b => b == (0 : Byte)) = bs := by
    rw [← htake]
    exact List.takeWhile_append_dropWhile _ bs
  have hheadrest : ∀ b t, bs.dropWhile (fun b => b == (0 : Byte)) = b :: t → b ≠ 0 := by
    intro b t hbt h0
    have hnq := dropWhile_eq_cons_head_false _ bs b t hbt
    rw [h0] at hnq
    simp at hnq
  have hval : beBytesVal bs
      = Nat.ofDigits 256 ((bs.dropWhile (fun b => b == (0 : Byte))).map Fin.val).reverse := by
    rw [beBytesVal, ← hsplit, List.foldl_append, foldl_bytes_zeros,
      foldl_bytes_eq_ofDigits, zero_mul, zero_add]
    rw [hsplit]
  have hdslt : ∀ d ∈ Nat.digits 58 (beBytesVal bs), d < 58 :=
    fun _ hd => Nat.digits_lt_base (by norm_num) hd
  have hallvalid : (base58Encode bs).all (fun c => (b58Index c).isSome) = true := by
    rw [base58Encode, List.all_append, Bool.and_eq_true]
    constructor
    · rw [List.all_eq_true]
      intro x hx
      rw [List.eq_of_mem_replicate hx, b58Index_one]
      rfl
    · rw [List.all_eq_true]
      intro x hx
      rw [List.mem_reverse] at hx
      obtain ⟨d, hd, hdx⟩ := List.mem_map.mp hx
      rw [← hdx, b58Index_getD d (hdslt d hd)]
      rfl
  rw [base58Decode, if_pos hallvalid]
  have hfold : (base58Encode bs).foldl (fun a c => a * 58 + ((b58Index c).getD 0)) 0
      = beBytesVal bs := by
    rw [base58Encode, List.foldl_append, foldl_b58_ones,
      foldl_b58_digits _ hdslt 0, zero_mul, zero_add, Nat.ofDigits_digits]
  rw [hfold]
  rcases Nat.eq_zero_or_pos (beBytesVal bs) with hn0 | hnpos
  · have hrestnil : bs.dropWhile (fun b => b == (0 : Byte)) = [] := by
      rcases hr : bs.dropWhile (fun b => b == (0 : Byte)) with _ | ⟨b, t⟩
      · rfl
      · exfalso
        have hpos : 0 < beBytesVal bs := by
          rw [hval, hr]
          exact ofDigits_head_pos b t (hheadrest b t hr)
        omega
    have hz : base58Encode bs = List.replicate (leadingZeros bs) '1' := by
      rw [base58Encode, hn0, Nat.digits_zero]
      simp
    rw [hz, hn0]
    rw [show (List.replicate (leadingZeros bs) '1').takeWhile (fun c => c == '1')
        = List.replicate (leadingZeros bs) '1' from by
      have h1 := takeWhile_replicate_append (fun c : Char => c == '1') '1' rfl
        (leadingZeros bs) []
      simp only [List.append_nil, List.takeWhile_nil] at h1
      exact h1]
    rw [List.length_replicate]
    rw [show natToBytesBE 0 = [] from by simp [natToBytesBE]]
    rw [List.append_nil]
    rw [hrestnil, List.append_nil] at hsplit
    exact hsplit
  · have hnne : beBytesVal bs ≠ 0 := Nat.pos_iff_ne_zero.mp hnpos
    have hdsne : Nat.digits 58 (beBytesVal bs) ≠ [] :=
      Nat.digits_ne_nil_iff_ne_zero.mpr hnne
    rcases hrev : (Nat.digits 58 (beBytesVal bs)).reverse with _ | ⟨dl, ds'⟩
    · exact absurd (by simpa using congrArg List.reverse hrev) hdsne
    · have hdlin : dl ∈ Nat.digits 58 (beBytesVal bs) := by
        rw [← List.mem_reverse, hrev]
        exact List.mem_cons_self _ _
      have hdl58 : dl < 58 := hdslt dl hdlin
      have hdlne : dl ≠ 0 := by
        have hgl : (Nat.digits 58 (beBytesVal bs)).getLast? = some dl := by
          rw [← List.head?_reverse, hrev]
          rfl
        rw [List.getLast?_eq_getLast _ hdsne] at hgl
        have h1 : (Nat.digits 58 (beBytesVal bs)).getLast hdsne = dl :=
          Option.some.inj hgl
        intro h0
        exact Nat.getLast_digit_ne_zero 58 hnne (h1.trans h0)
      have hchars : ((Nat.digits 58 (beBytesVal bs)).map
            fun d => b58Alphabet.getD d ' ').reverse
          = b58Alphabet.getD dl ' ' :: ds'.map (fun d => b58Alphabet.getD d ' ') := by
        rw [← List.map_reverse, hrev, List.map_cons]
      have hones : ((base58Encode bs).takeWhile fun c => c == '1').length
          = leadingZeros bs := by
        rw [base58Encode, hchars,
          takeWhile_replicate_append (fun c : Char => c == '1') '1' rfl,
          List.takeWhile_cons_of_neg, List.append_nil, List.length_replicate]
        simp only [beq_iff_eq]
        exact b58Alphabet_getD_ne_one dl hdl58 (Nat.pos_of_ne_zero hdlne)
      rw [hones, hval, natToBytesBE_beVal _ hheadrest]
      exact hsplit

/-- C9: the textual blockchain address produced by `NewWallet` base58-decodes
to 25 bytes; the first 21 are the version byte 0x00 followed by
RIPEMD-160(SHA-256(X bytes ++ Y bytes)), and the last 4 equal the first 4
bytes of SHA-256(SHA-256(first 21 bytes)). -/
theorem wallet_address_checksum (sha256B : List Byte → Hash32)
    (ripemd160B : List Byte → Digest20) (pubX pubY : List Byte) :
    (base58Decode (walletAddress sha256B ripemd160B pubX pubY)).length = 25 ∧
    (base58Decode (walletAddress sha256B ripemd160B pubX pubY)).take 21
      = 0 :: (ripemd160B (sha256B (pubX ++ pubY)).val).val ∧
    (base58Decode (walletAddress sha256B ripemd160B pubX pubY)).drop 21
      = (sha256B (sha256B
          ((base58Decode (walletAddress sha256B ripemd160B pubX pubY)).take 21)).val).val.take 4 := by
  rw [walletAddress, base58_roundtrip]
  have h20 : (ripemd160B (sha256B (pubX ++ pubY)).val).val.length = 20 :=
    (ripemd160B (sha256B (pubX ++ pubY)).val).property
  have h32a : (sha256B (sha256B
      (0 :: (ripemd160B (sha256B (pubX ++ pubY)).val).val)).val).val.length = 32 :=
    (sha256B _).property
  have hlen21 : ((0 : Byte) :: (ripemd160B (sha256B (pubX ++ pubY)).val).val).length = 21 := by
    simp [h20]
  have htake : (walletAddressBytes sha256B ripemd160B pubX pubY).take 21
      = 0 :: (ripemd160B (sha256B (pubX ++ pubY)).val).val := by
    rw [walletAddressBytes]
    rw [show (21 : ℕ) = ((0 : Byte) :: (ripemd160B (sha256B (pubX ++ pubY)).val).val).length
      from hlen21.symm]
    exact List.take_left _ _
  refine ⟨?_, htake, ?_⟩
  · rw [walletAddressBytes]
    simp [h20, h32a, List.length_take]
  · rw [htake, walletAddressBytes]
    rw [show (21 : ℕ) = ((0 : Byte) :: (ripemd160B (sha256B (pubX ++ pubY)).val).val).length
      from hlen21.symm]
    exact List.drop_left _ _

end BlockchainSpec
